import Mathlib

/-!
Shallow embedding of `src/scripts/assets-process.ts`, the build post-processing
script of this repository.

HTML documents are modelled as the two child lists of `head` and `body`; an
element carries its tag name, its attribute list (in document order) and its
text content.  All transforms of the script only inspect and edit children of
`head` and of `body`, so element nesting is not modelled.  Attribute and tag
matching is modelled case-sensitively (the processed documents are generated
lowercase HTML).  File-system effects are modelled by passing path strings and
documents explicitly; a per-file read/parse/write failure is an `Option.none`
(the `try`/`catch` of `processHtmlFile` logs it and leaves the file alone).
-/

namespace AssetsProcess

/-- A DOM element: tag name, attributes in document order, text content. -/
structure Element where
  tag : String
  attrs : List (String × String)
  text : String
deriving DecidableEq, Repr

/-- `$el.attr(k)`: the value of attribute `k`, if present. -/
def attr (e : Element) (k : String) : Option String :=
  (e.attrs.find? (fun p => p.1 == k)).map Prod.snd

/-- `$el.attr(k, v)`: set attribute `k` to `v` (replace in place if present,
otherwise append). -/
def setAttr (e : Element) (k v : String) : Element :=
  if e.attrs.any (fun p => p.1 == k) then
    { e with attrs := e.attrs.map (fun p => if p.1 == k then (k, v) else p) }
  else
    { e with attrs := e.attrs ++ [(k, v)] }

/-- `$el.removeAttr(k)`. -/
def removeAttr (e : Element) (k : String) : Element :=
  { e with attrs := e.attrs.filter (fun p => p.1 != k) }

/-- An HTML document as loaded by `cheerio.load`: the children of `head` and
the children of `body`. -/
structure Document where
  head : List Element
  body : List Element
deriving DecidableEq, Repr

/-- All elements of the document, in document order. -/
def allElems (d : Document) : List Element := d.head ++ d.body

def isScriptB (e : Element) : Bool := e.tag == "script"

def isTitleB (e : Element) : Bool := e.tag == "title"

/-- Selector `meta[name="<n>"]`. -/
def isMetaNamedB (n : String) (e : Element) : Bool :=
  e.tag == "meta" && attr e "name" == some n

/-- Selector `link[rel="preload"]`. -/
def isPreloadLinkB (e : Element) : Bool :=
  e.tag == "link" && attr e "rel" == some "preload"

/-- Body of the `$('link[rel="preload"]').each` loop of `processHtmlFile`
(lines 34-44): a style preload becomes a stylesheet link (set `rel`, drop
`as`), a font preload is removed, anything else is untouched. -/
def preloadEdit (e : Element) : Option Element :=
  if isPreloadLinkB e then
    if attr e "as" == some "style" then
      some (removeAttr (setAttr e "rel" "stylesheet") "as")
    else if attr e "as" == some "font" then
      none
    else some e
  else some e

/-- The whole preload-normalisation loop, applied to every element of the
document. -/
def preloadPass (d : Document) : Document :=
  { head := d.head.filterMap preloadEdit, body := d.body.filterMap preloadEdit }

/-- One `{title, message}` entry of a translation table. -/
structure Translation where
  title : String
  message : String
deriving DecidableEq, Repr

/-- Modelled from the spec: the three translation tables imported from
`src/config/i18n` (that file is not among the sources here).  Per the spec they
are three fixed read-only mappings (block-page, error-page, challenge-page),
each keyed by a page-type string to a `{title, message}` pair; the transforms
take them as an explicit parameter. -/
structure Tables where
  block : List (String × Translation)
  error : List (String × Translation)
  challenge : List (String × Translation)
deriving DecidableEq, Repr

/-- Split a character list at every occurrence of `c` (the pieces do not
contain `c`; leading, trailing and repeated separators give empty pieces,
exactly as JS `String.prototype.split` with a one-character separator). -/
def splitOnChar (c : Char) : List Char → List (List Char)
  | [] => [[]]
  | x :: xs =>
      let r := splitOnChar c xs
      if x == c then [] :: r
      else
        match r with
        | [] => [[x]]
        | s :: ss => (x :: s) :: ss

/-- `filePath.split(path.sep)` with the POSIX separator. -/
def splitPath (p : String) : List String :=
  (splitOnChar (Char.ofNat 0x2f) p.data).map (fun cs => String.mk cs)

/-- `l₁` occurs as a contiguous run inside `l₂`. -/
def isInfixOfL [BEq α] (l₁ l₂ : List α) : Bool :=
  match l₂ with
  | [] => l₁.isEmpty
  | _ :: ys => l₁.isPrefixOf l₂ || isInfixOfL l₁ ys

/-- Lines 64-72 of `updateTDK`: split the path, find the first `"cf"` segment
and read the two segments after it; `none` when the marker is absent or fewer
than two segments follow it (the early return of lines 67-69). -/
def tdkParams (p : String) : Option (String × String) :=
  match (splitPath p).findIdx? (fun s => s == "cf") with
  | none => none
  | some i =>
      if i + 2 ≥ (splitPath p).length then none
      else some ((splitPath p).getD (i + 1) "", (splitPath p).getD (i + 2) "")

def optTM : Option Translation → String × String
  | some tr => (tr.title, tr.message)
  | none => ("", "")

/-- The else-if chain of lines 77-86: the `(pageTitle, pageDescription)` pair,
`("", "")` when no table entry matches. -/
def lookupTDK (tbls : Tables) (dir ty : String) : String × String :=
  if dir == "block" && (List.lookup ty tbls.block).isSome then
    optTM (List.lookup ty tbls.block)
  else if dir == "error" && (List.lookup ty tbls.error).isSome then
    optTM (List.lookup ty tbls.error)
  else if dir == "challenge" && (List.lookup ty tbls.challenge).isSome then
    optTM (List.lookup ty tbls.challenge)
  else ("", "")

/-- `$("title").text(v)` rewrites the text of every title element. -/
def titleEdit (v : String) (e : Element) : Element :=
  if isTitleB e then { e with text := v } else e

def mapDoc (f : Element → Element) (d : Document) : Document :=
  { head := d.head.map f, body := d.body.map f }

/-- A `<meta name="n" content="c">` element. -/
def metaEl (n c : String) : Element :=
  { tag := "meta", attrs := [("name", n), ("content", c)], text := "" }

/-- `$('meta[name="description"]').attr("content", v)` rewrites the content
attribute of every description meta. -/
def descEdit (v : String) (e : Element) : Element :=
  if isMetaNamedB "description" e then setAttr e "content" v else e

/-- `$("head").append(el)`. -/
def appendHead (d : Document) (e : Element) : Document :=
  { d with head := d.head ++ [e] }

/-- The default keywords meta of line 106. -/
def kwMeta : Element :=
  metaEl "keywords" "Cloudflare, security, WAF, protection"

/-- Lines 88-108 of `updateTDK`, after the path was parsed: set every title,
overwrite or append the description meta, and append the default keywords meta
when none is present.  JS truthiness of `if (pageTitle)` / `if
(pageDescription)` makes the empty string skip the edit. -/
def updateTDKCore (pt pd : String) (d : Document) : Document :=
  let d1 := if pt == "" then d else mapDoc (titleEdit (pt ++ " - Cloudflare")) d
  let d2 :=
    if pd == "" then d1
    else if (allElems d1).any (isMetaNamedB "description") then
      mapDoc (descEdit pd) d1
    else appendHead d1 (metaEl "description" pd)
  if (allElems d2).any (isMetaNamedB "keywords") then d2
  else appendHead d2 kwMeta

/-- The title edit of lines 88-90 (`if (pageTitle)`), as one stage of
`updateTDKCore`. -/
def tdkTitleStage (pt : String) (d : Document) : Document :=
  if pt == "" then d else mapDoc (titleEdit (pt ++ " - Cloudflare")) d

/-- The description edit of lines 92-101 (`if (pageDescription)`), as one
stage of `updateTDKCore`. -/
def tdkDescStage (pd : String) (d : Document) : Document :=
  if pd == "" then d
  else if (allElems d).any (isMetaNamedB "description") then mapDoc (descEdit pd) d
  else appendHead d (metaEl "description" pd)

/-- The keywords default of lines 103-108, as one stage of `updateTDKCore`. -/
def tdkKwStage (d : Document) : Document :=
  if (allElems d).any (isMetaNamedB "keywords") then d else appendHead d kwMeta

/-- `updateTDK` (lines 63-109). -/
def updateTDK (tbls : Tables) (p : String) (d : Document) : Document :=
  match tdkParams p with
  | none => d
  | some (dir, ty) =>
      updateTDKCore (lookupTDK tbls dir ty).1 (lookupTDK tbls dir ty).2 d

/-- `packageJson.version || "unknown"` with the surrounding `try`/`catch`
(lines 120-129): `none` is a read or parse failure of `package.json`,
`some none` a parsed manifest without a `version` field; the `||` also turns an
empty version string into the sentinel. -/
def versionOf (manifest : Option (Option String)) : String :=
  match manifest with
  | some (some v) => if v == "" then "unknown" else v
  | _ => "unknown"

/-- The five meta tags prepended by `addCloudflareMetaTags` (lines 133-139),
in source order. -/
def cfMetaTags (version date : String) : List Element :=
  [metaEl "client-ip" "::CLIENT_IP::",
   metaEl "ray-id" "::RAY_ID::",
   metaEl "location-code" "::GEO::",
   metaEl "build-date" date,
   metaEl "version" version]

/-- `addCloudflareMetaTags` (lines 119-140): `$("head").prepend(...)`. -/
def addCloudflareMetaTags (version date : String) (d : Document) : Document :=
  { d with head := cfMetaTags version date ++ d.head }

/-- `moveScriptsToBodyBottom` (lines 151-173): collect the scripts of the
head in order; if none, do nothing; otherwise remove them from the head and
append them at the end of the body. -/
def moveScriptsToBodyBottom (d : Document) : Document :=
  let headScripts := d.head.filter isScriptB
  if headScripts.length == 0 then d
  else { head := d.head.filter (fun e => !isScriptB e), body := d.body ++ headScripts }

/-- JS `String.prototype.includes`. -/
def strIncludes (hay pat : String) : Bool := isInfixOfL pat.data hay.data

/-- The document transform of `processHtmlFile` (lines 29-61): preload
normalisation, then `updateTDK`, then - only when the path contains
`path.join("out", "cf")` - `addCloudflareMetaTags`, then script relocation.
`manifest` and `date` stand for the `package.json` read and `new Date()` of
`addCloudflareMetaTags`. -/
def processHtmlFile (tbls : Tables) (p : String) (manifest : Option (Option String))
    (date : String) (d : Document) : Document :=
  let d2 := updateTDK tbls p (preloadPass d)
  let d3 := if strIncludes p "out/cf" then
      addCloudflareMetaTags (versionOf manifest) date d2
    else d2
  moveScriptsToBodyBottom d3

/-- The `for` loop of `main` (lines 186-188) over the discovered files.  A
file is a path together with `some` parsed document, or `none` when reading,
parsing or writing it fails; the `try`/`catch` of `processHtmlFile` turns such
a failure into a logged no-op for that file and the loop continues. -/
def mainLoop (tbls : Tables) (manifest : Option (Option String)) (date : String)
    (files : List (String × Option Document)) : List (String × Option Document) :=
  files.map (fun f => (f.1, f.2.map (processHtmlFile tbls f.1 manifest date)))

/-- The transformed element a style preload becomes (lines 39-40). -/
def preloadStyled (e : Element) : Element :=
  removeAttr (setAttr e "rel" "stylesheet") "as"

/-- The spec's trigger condition for the platform meta tags, in the spec's
words: the path contains the subdirectory segment sequence `"out"` then
`"cf"`. -/
def specOutCfSegments (p : String) : Bool :=
  isInfixOfL ["out", "cf"] (splitPath p)

/-- `".html"` suffix test on the character list, for stating which table keys
a raw path segment can match. -/
def hasHtmlSuffix (k : String) : Bool :=
  ".html".data.isSuffixOf k.data

/-- The table the else-if chain of lines 77-86 consults for a category
segment (any other category falls through to no match). -/
def tableFor (tbls : Tables) (dir : String) : List (String × Translation) :=
  if dir == "block" then tbls.block
  else if dir == "error" then tbls.error
  else tbls.challenge

/-- No branch of the else-if chain of lines 77-86 fires: the category/type
pair matches no translation-table entry. -/
def noMatchB (tbls : Tables) (dir ty : String) : Bool :=
  !(dir == "block" && (List.lookup ty tbls.block).isSome)
    && !(dir == "error" && (List.lookup ty tbls.error).isSome)
    && !(dir == "challenge" && (List.lookup ty tbls.challenge).isSome)

/-! Concrete instances used by witnesses and counterexamples. -/

def trW : Translation :=
  { title := "Access denied", message := "The owner of this website has banned your IP" }

def tblsW : Tables :=
  { block := [("ip", trW)],
    error := [("500", { title := "Server error", message := "An internal error occurred" })],
    challenge := [("js", { title := "Checking your browser", message := "Please wait" })] }

def emptyDoc : Document := { head := [], body := [] }

def linkW : Element :=
  { tag := "link", attrs := [("rel", "preload"), ("as", "style"), ("href", "/s.css")], text := "" }

def docW : Document :=
  { head := [{ tag := "title", attrs := [], text := "Old title" },
             { tag := "meta", attrs := [("name", "description"), ("content", "old")], text := "" },
             { tag := "script", attrs := [("src", "/a.js")], text := "" },
             linkW],
    body := [{ tag := "script", attrs := [("src", "/b.js")], text := "" }] }

def docNoTitle : Document :=
  { head := [{ tag := "meta", attrs := [("name", "description"), ("content", "d")], text := "" }],
    body := [{ tag := "script", attrs := [], text := "" }] }

/-! ### Attribute lemmas -/

theorem find?_map_setter (l : List (String × String)) (k v : String)
    (h : l.any (fun p => p.1 == k) = true) :
    (l.map (fun p => if p.1 == k then (k, v) else p)).find? (fun p => p.1 == k)
      = some (k, v) := by
  induction l with
  | nil => simp at h
  | cons a as ih =>
    rw [List.map_cons]
    by_cases hk : (a.1 == k) = true
    · rw [if_pos hk, List.find?_cons_of_pos (p := fun q : String × String => q.1 == k) _ (beq_self_eq_true k)]
    · have h' : as.any (fun p => p.1 == k) = true := by
        simp only [List.any_cons, hk, Bool.false_or] at h
        simpa using h
      rw [if_neg hk, List.find?_cons_of_neg (p := fun q : String × String => q.1 == k) _ hk]
      exact ih h'

theorem find?_map_setter_other (l : List (String × String)) (k v k' : String)
    (hkk : k' ≠ k) :
    (l.map (fun p => if p.1 == k then (k, v) else p)).find? (fun p => p.1 == k')
      = l.find? (fun p => p.1 == k') := by
  induction l with
  | nil => rfl
  | cons a as ih =>
    rw [List.map_cons]
    by_cases hk : (a.1 == k) = true
    · have h2 : ¬((a.1 == k') = true) := by
        rw [eq_of_beq hk]
        simp [beq_eq_false_iff_ne.mpr (Ne.symm hkk)]
      have h3 : ¬(((k, v).1 == k') = true) := by
        simp [beq_eq_false_iff_ne.mpr (Ne.symm hkk)]
      rw [if_pos hk, List.find?_cons_of_neg (p := fun q : String × String => q.1 == k') _ h3,
        List.find?_cons_of_neg (p := fun q : String × String => q.1 == k') _ h2]
      exact ih
    · rw [if_neg hk]
      by_cases hk' : (a.1 == k') = true
      · rw [List.find?_cons_of_pos (p := fun q : String × String => q.1 == k') _ hk',
          List.find?_cons_of_pos (p := fun q : String × String => q.1 == k') _ hk']
      · rw [List.find?_cons_of_neg (p := fun q : String × String => q.1 == k') _ hk',
          List.find?_cons_of_neg (p := fun q : String × String => q.1 == k') _ hk']
        exact ih

theorem find?_filter_ne (l : List (String × String)) (k k' : String) (hkk : k' ≠ k) :
    (l.filter (fun p => p.1 != k)).find? (fun p => p.1 == k')
      = l.find? (fun p => p.1 == k') := by
  induction l with
  | nil => rfl
  | cons a as ih =>
    rw [List.filter_cons]
    by_cases hk : (a.1 == k) = true
    · have h1 : ¬((a.1 != k) = true) := by simp [bne, hk]
      have h2 : ¬((a.1 == k') = true) := by
        rw [eq_of_beq hk]
        simp [beq_eq_false_iff_ne.mpr (Ne.symm hkk)]
      rw [if_neg h1, List.find?_cons_of_neg (p := fun q : String × String => q.1 == k') _ h2]
      exact ih
    · have h1 : (a.1 != k) = true := by
        simp [bne, hk]
      rw [if_pos h1]
      by_cases hk' : (a.1 == k') = true
      · rw [List.find?_cons_of_pos (p := fun q : String × String => q.1 == k') _ hk',
          List.find?_cons_of_pos (p := fun q : String × String => q.1 == k') _ hk']
      · rw [List.find?_cons_of_neg (p := fun q : String × String => q.1 == k') _ hk',
          List.find?_cons_of_neg (p := fun q : String × String => q.1 == k') _ hk']
        exact ih

theorem attrs_setAttr (e : Element) (k v : String) :
    (setAttr e k v).attrs
      = if e.attrs.any (fun p => p.1 == k) then
          e.attrs.map (fun p => if p.1 == k then (k, v) else p)
        else e.attrs ++ [(k, v)] := by
  unfold setAttr
  split <;> simp_all

theorem attr_setAttr_self (e : Element) (k v : String) :
    attr (setAttr e k v) k = some v := by
  unfold attr
  rw [attrs_setAttr]
  cases hb : e.attrs.any (fun p => p.1 == k) with
  | true =>
    rw [if_pos rfl, find?_map_setter e.attrs k v hb]
    rfl
  | false =>
    rw [if_neg (by simp)]
    have hn : e.attrs.find? (fun p => p.1 == k) = none :=
      List.find?_eq_none.mpr (List.any_eq_false.mp hb)
    rw [List.find?_append, hn]
    rw [List.find?_cons_of_pos (p := fun q : String × String => q.1 == k) _ (beq_self_eq_true k)]
    rfl

theorem attr_setAttr_other (e : Element) (k v k' : String) (hkk : k' ≠ k) :
    attr (setAttr e k v) k' = attr e k' := by
  unfold attr
  rw [attrs_setAttr]
  cases hb : e.attrs.any (fun p => p.1 == k) with
  | true =>
    rw [if_pos rfl, find?_map_setter_other e.attrs k v k' hkk]
  | false =>
    rw [if_neg (by simp), List.find?_append]
    have : ([(k, v)].find? (fun p => p.1 == k')) = none := by
      have : ¬(((k, v).1 == k') = true) := by
        simp [beq_eq_false_iff_ne.mpr (Ne.symm hkk)]
      rw [List.find?_cons_of_neg (p := fun q : String × String => q.1 == k') _ this]
      rfl
    rw [this, Option.or_none]

theorem attr_removeAttr_self (e : Element) (k : String) :
    attr (removeAttr e k) k = none := by
  unfold attr removeAttr
  have hn : (e.attrs.filter (fun p => p.1 != k)).find? (fun p => p.1 == k) = none := by
    apply List.find?_eq_none.mpr
    intro x hx
    have hb := (List.mem_filter.mp hx).2
    simp only [bne] at hb
    simp at hb
    simp [hb]
  rw [hn]
  rfl

theorem attr_removeAttr_other (e : Element) (k k' : String) (hkk : k' ≠ k) :
    attr (removeAttr e k) k' = attr e k' := by
  unfold attr removeAttr
  rw [find?_filter_ne e.attrs k k' hkk]

theorem tag_setAttr (e : Element) (k v : String) : (setAttr e k v).tag = e.tag := by
  unfold setAttr
  split <;> rfl

theorem text_setAttr (e : Element) (k v : String) : (setAttr e k v).text = e.text := by
  unfold setAttr
  split <;> rfl

theorem tag_removeAttr (e : Element) (k : String) : (removeAttr e k).tag = e.tag := rfl

theorem text_removeAttr (e : Element) (k : String) : (removeAttr e k).text = e.text := rfl

theorem attr_metaEl_name (n c : String) : attr (metaEl n c) "name" = some n := rfl

theorem attr_metaEl_content (n c : String) : attr (metaEl n c) "content" = some c := rfl

theorem isMetaNamedB_metaEl (n' n c : String) : isMetaNamedB n' (metaEl n c) = (n == n') := rfl

theorem isTitleB_metaEl (n c : String) : isTitleB (metaEl n c) = false := rfl

theorem isScriptB_metaEl (n c : String) : isScriptB (metaEl n c) = false := rfl

theorem isPreloadLinkB_metaEl (n c : String) : isPreloadLinkB (metaEl n c) = false := rfl

/-! ### Preload-normalisation lemmas -/

theorem preloadEdit_not_link (e : Element) (h : isPreloadLinkB e = false) :
    preloadEdit e = some e := by
  simp [preloadEdit, h]

theorem preloadEdit_style (e : Element) (h1 : isPreloadLinkB e = true)
    (h2 : attr e "as" = some "style") :
    preloadEdit e = some (preloadStyled e) := by
  simp [preloadEdit, h1, h2, preloadStyled]

theorem preloadEdit_font (e : Element) (h1 : isPreloadLinkB e = true)
    (h2 : attr e "as" = some "font") :
    preloadEdit e = none := by
  simp [preloadEdit, h1, h2]

theorem preloadEdit_other (e : Element) (h1 : isPreloadLinkB e = true)
    (h2 : attr e "as" ≠ some "style") (h3 : attr e "as" ≠ some "font") :
    preloadEdit e = some e := by
  simp [preloadEdit, h1, beq_iff_eq, h2, h3]

theorem preloadStyled_tag (e : Element) : (preloadStyled e).tag = e.tag := by
  simp [preloadStyled, tag_removeAttr, tag_setAttr]

theorem attr_preloadStyled_rel (e : Element) :
    attr (preloadStyled e) "rel" = some "stylesheet" := by
  unfold preloadStyled
  rw [attr_removeAttr_other _ _ _ (by decide)]
  exact attr_setAttr_self e "rel" "stylesheet"

theorem attr_preloadStyled_as (e : Element) : attr (preloadStyled e) "as" = none :=
  attr_removeAttr_self _ "as"

theorem isPreloadLinkB_preloadStyled (e : Element) :
    isPreloadLinkB (preloadStyled e) = false := by
  simp [isPreloadLinkB, attr_preloadStyled_rel]

theorem preloadEdit_cases (e : Element) :
    preloadEdit e = some e
      ∨ (isPreloadLinkB e = true ∧ attr e "as" = some "style"
          ∧ preloadEdit e = some (preloadStyled e))
      ∨ (isPreloadLinkB e = true ∧ attr e "as" = some "font" ∧ preloadEdit e = none) := by
  by_cases h1 : isPreloadLinkB e = true
  · by_cases h2 : attr e "as" = some "style"
    · exact Or.inr (Or.inl ⟨h1, h2, preloadEdit_style e h1 h2⟩)
    · by_cases h3 : attr e "as" = some "font"
      · exact Or.inr (Or.inr ⟨h1, h3, preloadEdit_font e h1 h3⟩)
      · exact Or.inl (preloadEdit_other e h1 h2 h3)
  · exact Or.inl (preloadEdit_not_link e (eq_false_of_ne_true h1))

theorem preloadEdit_some_not_fontPreload (e e' : Element) (h : preloadEdit e = some e') :
    ¬(isPreloadLinkB e' = true ∧ attr e' "as" = some "font") := by
  rintro ⟨hp, hf⟩
  rcases preloadEdit_cases e with hc | ⟨h1, h2, hc⟩ | ⟨h1, h2, hc⟩
  · have he : e' = e := by
      rw [hc] at h
      exact (Option.some.inj h).symm
    subst he
    rw [preloadEdit_font e' hp hf] at hc
    cases hc
  · have he : e' = preloadStyled e := by
      rw [hc] at h
      exact (Option.some.inj h).symm
    subst he
    rw [isPreloadLinkB_preloadStyled e] at hp
    cases hp
  · rw [hc] at h
    cases h

theorem preloadEdit_idem (e e' : Element) (h : preloadEdit e = some e') :
    preloadEdit e' = some e' := by
  rcases preloadEdit_cases e with hc | ⟨h1, h2, hc⟩ | ⟨h1, h2, hc⟩
  · have he : e' = e := by
      rw [hc] at h
      exact (Option.some.inj h).symm
    subst he
    exact hc
  · have he : e' = preloadStyled e := by
      rw [hc] at h
      exact (Option.some.inj h).symm
    subst he
    exact preloadEdit_not_link _ (isPreloadLinkB_preloadStyled e)
  · rw [hc] at h
    cases h

theorem allElems_preloadPass (d : Document) :
    allElems (preloadPass d) = (allElems d).filterMap preloadEdit := by
  simp [allElems, preloadPass, List.filterMap_append]

theorem preloadPass_idem (d : Document) : preloadPass (preloadPass d) = preloadPass d := by
  have key : ∀ l : List Element,
      (l.filterMap preloadEdit).filterMap preloadEdit = l.filterMap preloadEdit := by
    intro l
    induction l with
    | nil => rfl
    | cons a as ih =>
      cases h : preloadEdit a with
      | none => simp [List.filterMap_cons, h, ih]
      | some b => simp [List.filterMap_cons, h, preloadEdit_idem a b h, ih]
  simp [preloadPass, key]

/-! ### Script-relocation lemmas -/

theorem movePass_no_headScripts (d : Document) (h : d.head.filter isScriptB = []) :
    moveScriptsToBodyBottom d = d := by
  simp [moveScriptsToBodyBottom, h]

theorem movePass_headScripts (d : Document) (h : d.head.filter isScriptB ≠ []) :
    moveScriptsToBodyBottom d
      = { head := d.head.filter (fun e => !isScriptB e),
          body := d.body ++ d.head.filter isScriptB } := by
  have hlen : ((d.head.filter isScriptB).length == 0) = false := by
    rw [beq_eq_false_iff_ne]
    intro hc
    exact h (List.length_eq_zero.mp hc)
  simp [moveScriptsToBodyBottom, hlen]

theorem moveScriptsToBodyBottom_idem (d : Document) :
    moveScriptsToBodyBottom (moveScriptsToBodyBottom d) = moveScriptsToBodyBottom d := by
  by_cases h : d.head.filter isScriptB = []
  · rw [movePass_no_headScripts d h, movePass_no_headScripts d h]
  · rw [movePass_headScripts d h]
    apply movePass_no_headScripts
    show (d.head.filter (fun e => !isScriptB e)).filter isScriptB = []
    rw [List.filter_filter]
    simp

theorem mem_movePass (d : Document) (e : Element) :
    e ∈ allElems (moveScriptsToBodyBottom d) ↔ e ∈ allElems d := by
  by_cases h : d.head.filter isScriptB = []
  · rw [movePass_no_headScripts d h]
  · rw [movePass_headScripts d h]
    simp only [allElems, List.mem_append, List.mem_filter]
    by_cases hs : isScriptB e = true <;> simp [hs] <;> tauto

theorem movePass_filter_eq (P : Element → Bool)
    (hP : ∀ e, P e = true → isScriptB e = false) (d : Document) :
    (allElems (moveScriptsToBodyBottom d)).filter P = (allElems d).filter P := by
  by_cases h : d.head.filter isScriptB = []
  · rw [movePass_no_headScripts d h]
  · rw [movePass_headScripts d h]
    show ((d.head.filter (fun e => !isScriptB e)) ++ (d.body ++ d.head.filter isScriptB)).filter P
      = (d.head ++ d.body).filter P
    rw [List.filter_append, List.filter_append, List.filter_append]
    have h1 : (d.head.filter (fun e => !isScriptB e)).filter P = d.head.filter P := by
      rw [List.filter_filter]
      apply List.filter_congr
      intro a _
      by_cases hp : P a = true
      · simp [hp, hP a hp]
      · simp [eq_false_of_ne_true hp]
    have h2 : (d.head.filter isScriptB).filter P = [] := by
      rw [List.filter_filter]
      apply List.filter_eq_nil_iff.mpr
      intro a _
      by_cases hp : P a = true
      · simp [hp, hP a hp]
      · simp [eq_false_of_ne_true hp]
    rw [h1, h2, List.append_nil]

/-! ### Element-kind lemmas for the metadata edits -/

theorem tag_titleEdit (v : String) (e : Element) : (titleEdit v e).tag = e.tag := by
  unfold titleEdit
  split <;> rfl

theorem attrs_titleEdit (v : String) (e : Element) : (titleEdit v e).attrs = e.attrs := by
  unfold titleEdit
  split <;> rfl

theorem attr_titleEdit (v : String) (e : Element) (k : String) :
    attr (titleEdit v e) k = attr e k := by
  unfold attr
  rw [attrs_titleEdit]

theorem isTitleB_titleEdit (v : String) (e : Element) :
    isTitleB (titleEdit v e) = isTitleB e := by
  simp [isTitleB, tag_titleEdit]

theorem isScriptB_titleEdit (v : String) (e : Element) :
    isScriptB (titleEdit v e) = isScriptB e := by
  simp [isScriptB, tag_titleEdit]

theorem isMetaNamedB_titleEdit (n v : String) (e : Element) :
    isMetaNamedB n (titleEdit v e) = isMetaNamedB n e := by
  simp [isMetaNamedB, tag_titleEdit, attr_titleEdit]

theorem titleEdit_text (v : String) (e : Element) (h : isTitleB e = true) :
    (titleEdit v e).text = v := by
  unfold titleEdit
  rw [if_pos h]

theorem titleEdit_not_title (v : String) (e : Element) (h : isTitleB e = false) :
    titleEdit v e = e := by
  unfold titleEdit
  rw [if_neg (by simp [h])]

theorem tag_descEdit (v : String) (e : Element) : (descEdit v e).tag = e.tag := by
  unfold descEdit
  split
  · exact tag_setAttr e "content" v
  · rfl

theorem text_descEdit (v : String) (e : Element) : (descEdit v e).text = e.text := by
  unfold descEdit
  split
  · exact text_setAttr e "content" v
  · rfl

theorem attr_name_descEdit (v : String) (e : Element) :
    attr (descEdit v e) "name" = attr e "name" := by
  unfold descEdit
  split
  · exact attr_setAttr_other e "content" v "name" (by decide)
  · rfl

theorem isTitleB_descEdit (v : String) (e : Element) :
    isTitleB (descEdit v e) = isTitleB e := by
  simp [isTitleB, tag_descEdit]

theorem isScriptB_descEdit (v : String) (e : Element) :
    isScriptB (descEdit v e) = isScriptB e := by
  simp [isScriptB, tag_descEdit]

theorem isMetaNamedB_descEdit (n v : String) (e : Element) :
    isMetaNamedB n (descEdit v e) = isMetaNamedB n e := by
  simp [isMetaNamedB, tag_descEdit, attr_name_descEdit]

theorem descEdit_content (v : String) (e : Element)
    (h : isMetaNamedB "description" e = true) :
    attr (descEdit v e) "content" = some v := by
  unfold descEdit
  rw [if_pos h]
  exact attr_setAttr_self e "content" v

theorem descEdit_not_desc (v : String) (e : Element)
    (h : isMetaNamedB "description" e = false) :
    descEdit v e = e := by
  unfold descEdit
  rw [if_neg (by simp [h])]

theorem tag_of_isMetaNamedB (n : String) (e : Element) (h : isMetaNamedB n e = true) :
    e.tag = "meta" := by
  unfold isMetaNamedB at h
  exact eq_of_beq (Bool.and_eq_true_iff.mp h).1

theorem attr_name_of_isMetaNamedB (n : String) (e : Element)
    (h : isMetaNamedB n e = true) : attr e "name" = some n := by
  unfold isMetaNamedB at h
  exact eq_of_beq (Bool.and_eq_true_iff.mp h).2

theorem isTitleB_of_meta (n : String) (e : Element) (h : isMetaNamedB n e = true) :
    isTitleB e = false := by
  unfold isTitleB
  rw [tag_of_isMetaNamedB n e h]
  rfl

theorem isScriptB_of_meta (n : String) (e : Element) (h : isMetaNamedB n e = true) :
    isScriptB e = false := by
  unfold isScriptB
  rw [tag_of_isMetaNamedB n e h]
  rfl

theorem isMetaNamedB_ne (n n' : String) (e : Element) (hne : n ≠ n')
    (h : isMetaNamedB n e = true) : isMetaNamedB n' e = false := by
  unfold isMetaNamedB
  rw [attr_name_of_isMetaNamedB n e h, tag_of_isMetaNamedB n e h]
  simp [hne]

theorem isMetaNamedB_kwMeta : isMetaNamedB "keywords" kwMeta = true := rfl

theorem isTitleB_kwMeta : isTitleB kwMeta = false := rfl

theorem isScriptB_kwMeta : isScriptB kwMeta = false := rfl

theorem cfMeta_props (v date : String) :
    ∀ e ∈ cfMetaTags v date,
      e.tag = "meta" ∧ isTitleB e = false ∧ isScriptB e = false
        ∧ isMetaNamedB "description" e = false ∧ isMetaNamedB "keywords" e = false := by
  intro e he
  simp only [cfMetaTags, List.mem_cons, List.not_mem_nil, or_false] at he
  rcases he with rfl | rfl | rfl | rfl | rfl <;> exact ⟨rfl, rfl, rfl, rfl, rfl⟩

/-! ### Generic list-invariance lemmas -/

theorem filter_map_eq (P : Element → Bool) (f : Element → Element)
    (hstat : ∀ e, P (f e) = P e) (hfix : ∀ e, P e = true → f e = e)
    (l : List Element) :
    (l.map f).filter P = l.filter P := by
  induction l with
  | nil => rfl
  | cons a as ih =>
    rw [List.map_cons, List.filter_cons, List.filter_cons]
    cases hp : P a with
    | true =>
      have hs : P (f a) = true := by rw [hstat, hp]
      simp [hfix a hp, hs, hp, ih]
    | false =>
      have hs : P (f a) = false := by rw [hstat, hp]
      simp [hs, hp, ih]

theorem filter_map_length (P : Element → Bool) (f : Element → Element)
    (hstat : ∀ e, P (f e) = P e) (l : List Element) :
    ((l.map f).filter P).length = (l.filter P).length := by
  induction l with
  | nil => rfl
  | cons a as ih =>
    rw [List.map_cons, List.filter_cons, List.filter_cons]
    cases hp : P a with
    | true =>
      have hs : P (f a) = true := by rw [hstat, hp]
      simp [hs, hp, ih]
    | false =>
      have hs : P (f a) = false := by rw [hstat, hp]
      simp [hs, hp, ih]

theorem filter_filterMap_eq (P : Element → Bool) (f : Element → Option Element)
    (hfix : ∀ e, P e = true → f e = some e)
    (hstat : ∀ e e', f e = some e' → P e' = P e) (l : List Element) :
    (l.filterMap f).filter P = l.filter P := by
  induction l with
  | nil => rfl
  | cons a as ih =>
    rw [List.filterMap_cons]
    cases hf : f a with
    | none =>
      have hp : P a = false := by
        cases hp : P a with
        | true =>
          rw [hfix a hp] at hf
          cases hf
        | false => rfl
      simp [List.filter_cons, hp, ih]
    | some b =>
      cases hp : P a with
      | true =>
        have hba : a = b := by
          rw [hfix a hp] at hf
          exact Option.some.inj hf
        subst hba
        simp [List.filter_cons, hp, ih]
      | false =>
        have hbf : P b = false := by rw [hstat a b hf, hp]
        simp [List.filter_cons, hbf, hp, ih]

/-! ### Document-level transport lemmas -/

theorem allElems_mapDoc (f : Element → Element) (d : Document) :
    allElems (mapDoc f d) = (allElems d).map f := by
  simp [allElems, mapDoc]

theorem mem_appendHead (d : Document) (x e : Element) :
    x ∈ allElems (appendHead d e) ↔ x ∈ allElems d ∨ x = e := by
  simp only [allElems, appendHead, List.mem_append, List.mem_cons, List.not_mem_nil,
    or_false]
  tauto

theorem filter_appendHead (P : Element → Bool) (d : Document) (e : Element)
    (h : P e = false) :
    (allElems (appendHead d e)).filter P = (allElems d).filter P := by
  simp only [allElems, appendHead, List.filter_append, List.filter_cons, h,
    Bool.false_eq_true, if_false, List.filter_nil, List.append_nil]

theorem mem_addCfMeta (v date : String) (d : Document) (x : Element) :
    x ∈ allElems (addCloudflareMetaTags v date d)
      ↔ x ∈ cfMetaTags v date ∨ x ∈ allElems d := by
  simp only [allElems, addCloudflareMetaTags, List.mem_append]
  tauto

theorem filter_addCfMeta (P : Element → Bool) (v date : String) (d : Document)
    (h : ∀ e ∈ cfMetaTags v date, P e = false) :
    (allElems (addCloudflareMetaTags v date d)).filter P = (allElems d).filter P := by
  have hcf : (cfMetaTags v date).filter P = [] := List.filter_eq_nil_iff.mpr
    (fun a ha => by simp [h a ha])
  simp only [allElems, addCloudflareMetaTags, List.filter_append, List.append_assoc, hcf,
    List.nil_append]

/-! ### Stage lemmas for `updateTDKCore` -/

theorem updateTDKCore_stages (pt pd : String) (d : Document) :
    updateTDKCore pt pd d = tdkKwStage (tdkDescStage pd (tdkTitleStage pt d)) := rfl

theorem filter_tdkTitleStage (P : Element → Bool) (pt : String) (d : Document)
    (hstat : ∀ e, P (titleEdit (pt ++ " - Cloudflare") e) = P e)
    (hfix : ∀ e, P e = true → isTitleB e = false) :
    (allElems (tdkTitleStage pt d)).filter P = (allElems d).filter P := by
  unfold tdkTitleStage
  split
  · rfl
  · rw [allElems_mapDoc]
    exact filter_map_eq P _ hstat
      (fun e he => titleEdit_not_title _ e (hfix e he)) _

theorem filter_tdkDescStage (P : Element → Bool) (pd : String) (d : Document)
    (hstat : ∀ e, P (descEdit pd e) = P e)
    (hfix : ∀ e, P e = true → isMetaNamedB "description" e = false)
    (hmeta : P (metaEl "description" pd) = false) :
    (allElems (tdkDescStage pd d)).filter P = (allElems d).filter P := by
  unfold tdkDescStage
  split
  · rfl
  · split
    · rw [allElems_mapDoc]
      exact filter_map_eq P _ hstat
        (fun e he => descEdit_not_desc pd e (hfix e he)) _
    · exact filter_appendHead P d _ hmeta

theorem filter_tdkKwStage (P : Element → Bool) (d : Document)
    (hkw : P kwMeta = false) :
    (allElems (tdkKwStage d)).filter P = (allElems d).filter P := by
  unfold tdkKwStage
  split
  · rfl
  · exact filter_appendHead P d kwMeta hkw

theorem isMetaNamedB_of_title (n : String) (e : Element) (h : isTitleB e = true) :
    isMetaNamedB n e = false := by
  unfold isTitleB at h
  unfold isMetaNamedB
  rw [eq_of_beq h]
  rfl

theorem mem_tdkKwStage_cases (d : Document) (x : Element)
    (h : x ∈ allElems (tdkKwStage d)) : x ∈ allElems d ∨ x = kwMeta := by
  unfold tdkKwStage at h
  split at h
  · exact Or.inl h
  · exact (mem_appendHead d x kwMeta).mp h

theorem mem_tdkKwStage_of_mem (d : Document) (x : Element)
    (h : x ∈ allElems d) : x ∈ allElems (tdkKwStage d) := by
  unfold tdkKwStage
  split
  · exact h
  · exact (mem_appendHead d x kwMeta).mpr (Or.inl h)

theorem titles_after_titleEdit (v : String) (d : Document) :
    ∀ e ∈ allElems (mapDoc (titleEdit v) d), isTitleB e = true → e.text = v := by
  intro e he ht
  rw [allElems_mapDoc] at he
  obtain ⟨a, ha, rfl⟩ := List.mem_map.mp he
  cases hta : isTitleB a with
  | true => exact titleEdit_text v a hta
  | false =>
    rw [titleEdit_not_title v a hta] at ht
    rw [hta] at ht
    cases ht

theorem titles_tdkDescStage (pd : String) (T : Document) (v : String)
    (h : ∀ e ∈ allElems T, isTitleB e = true → e.text = v) :
    ∀ e ∈ allElems (tdkDescStage pd T), isTitleB e = true → e.text = v := by
  intro e he ht
  unfold tdkDescStage at he
  split at he
  · exact h e he ht
  · split at he
    · rw [allElems_mapDoc] at he
      obtain ⟨b, hb, rfl⟩ := List.mem_map.mp he
      rw [text_descEdit]
      refine h b hb ?_
      rw [← isTitleB_descEdit pd b]
      exact ht
    · rcases (mem_appendHead T e _).mp he with hmem | rfl
      · exact h e hmem ht
      · exact Bool.noConfusion ht

theorem desc_stage_props (pd : String) (T : Document) (hpd : pd ≠ "") :
    (∃ e, e ∈ allElems (tdkDescStage pd T) ∧ isMetaNamedB "description" e = true
      ∧ attr e "content" = some pd)
    ∧ (∀ e ∈ allElems (tdkDescStage pd T),
        isMetaNamedB "description" e = true → attr e "content" = some pd) := by
  unfold tdkDescStage
  rw [if_neg (by simp [hpd])]
  split
  case isTrue h =>
    obtain ⟨a, ha, hda⟩ := List.any_eq_true.mp h
    constructor
    · refine ⟨descEdit pd a, ?_, ?_, descEdit_content pd a hda⟩
      · rw [allElems_mapDoc]
        exact List.mem_map_of_mem _ ha
      · rw [isMetaNamedB_descEdit]
        exact hda
    · intro e he hde
      rw [allElems_mapDoc] at he
      obtain ⟨b, hb, rfl⟩ := List.mem_map.mp he
      refine descEdit_content pd b ?_
      rw [← isMetaNamedB_descEdit "description" pd b]
      exact hde
  case isFalse h =>
    have hnone : ∀ x ∈ allElems T, ¬isMetaNamedB "description" x = true :=
      List.any_eq_false.mp (eq_false_of_ne_true h)
    constructor
    · exact ⟨metaEl "description" pd, (mem_appendHead T _ _).mpr (Or.inr rfl), rfl,
        attr_metaEl_content _ _⟩
    · intro e he hde
      rcases (mem_appendHead T e _).mp he with hmem | rfl
      · exact absurd hde (hnone e hmem)
      · exact attr_metaEl_content _ _

theorem updateTDKCore_match (pt pd : String) (d : Document)
    (hpt : pt ≠ "") (hpd : pd ≠ "") :
    (∀ e ∈ allElems (updateTDKCore pt pd d), isTitleB e = true →
      e.text = pt ++ " - Cloudflare")
    ∧ (∃ e, e ∈ allElems (updateTDKCore pt pd d)
        ∧ isMetaNamedB "description" e = true ∧ attr e "content" = some pd)
    ∧ (∀ e ∈ allElems (updateTDKCore pt pd d),
        isMetaNamedB "description" e = true → attr e "content" = some pd) := by
  rw [updateTDKCore_stages]
  have hT : ∀ e ∈ allElems (tdkTitleStage pt d), isTitleB e = true →
      e.text = pt ++ " - Cloudflare" := by
    unfold tdkTitleStage
    rw [if_neg (by simp [hpt])]
    exact titles_after_titleEdit _ d
  have hD := titles_tdkDescStage pd (tdkTitleStage pt d) _ hT
  have hDprops := desc_stage_props pd (tdkTitleStage pt d) hpd
  refine ⟨?_, ?_, ?_⟩
  · intro e he ht
    rcases mem_tdkKwStage_cases _ e he with hmem | rfl
    · exact hD e hmem ht
    · exact Bool.noConfusion ht
  · obtain ⟨e, hmem, hd, hc⟩ := hDprops.1
    exact ⟨e, mem_tdkKwStage_of_mem _ e hmem, hd, hc⟩
  · intro e he hde
    rcases mem_tdkKwStage_cases _ e he with hmem | rfl
    · exact hDprops.2 e hmem hde
    · exact Bool.noConfusion hde

theorem updateTDKCore_empty (d : Document) :
    updateTDKCore "" "" d = tdkKwStage d := rfl

/-! ### Path-parsing lemmas -/

theorem findIdx?_cf_go (ps : List String) (h : "cf" ∉ ps) (l : List String)
    (i : Nat) :
    List.findIdx? (fun s => s == "cf") (ps ++ "cf" :: l) i = some (i + ps.length) := by
  induction ps generalizing i with
  | nil =>
    rw [List.nil_append, List.findIdx?_cons, if_pos (by simp)]
    simp
  | cons a as ih =>
    have ha : ¬((a == "cf") = true) := by
      simp only [beq_iff_eq]
      intro hc
      exact h (hc ▸ List.mem_cons_self a as)
    have h' : "cf" ∉ as := fun hc => h (List.mem_cons_of_mem a hc)
    rw [List.cons_append, List.findIdx?_cons, if_neg ha, ih h']
    simp only [Option.some.injEq, List.length_cons]
    omega

theorem tdkParams_split (p : String) (ps rest : List String) (dir ty : String)
    (hsplit : splitPath p = ps ++ "cf" :: dir :: ty :: rest) (hcf : "cf" ∉ ps) :
    tdkParams p = some (dir, ty) := by
  unfold tdkParams
  rw [hsplit, findIdx?_cf_go ps hcf (dir :: ty :: rest) 0]
  show (if 0 + ps.length + 2 ≥ (ps ++ "cf" :: dir :: ty :: rest).length then none
    else some ((ps ++ "cf" :: dir :: ty :: rest).getD (0 + ps.length + 1) "",
      (ps ++ "cf" :: dir :: ty :: rest).getD (0 + ps.length + 2) "")) = some (dir, ty)
  have hlen : ¬(0 + ps.length + 2 ≥ (ps ++ "cf" :: dir :: ty :: rest).length) := by
    simp only [List.length_append, List.length_cons]
    omega
  rw [if_neg hlen]
  have h1 : (ps ++ "cf" :: dir :: ty :: rest).getD (0 + ps.length + 1) "" = dir := by
    rw [List.getD_append_right _ _ _ _ (by omega)]
    have : 0 + ps.length + 1 - ps.length = 1 := by omega
    rw [this]
    rfl
  have h2 : (ps ++ "cf" :: dir :: ty :: rest).getD (0 + ps.length + 2) "" = ty := by
    rw [List.getD_append_right _ _ _ _ (by omega)]
    have : 0 + ps.length + 2 - ps.length = 2 := by omega
    rw [this]
    rfl
  rw [h1, h2]

/-! ### Lookup lemmas -/

theorem lookupTDK_of_noMatchB (tbls : Tables) (dir ty : String)
    (h : noMatchB tbls dir ty = true) : lookupTDK tbls dir ty = ("", "") := by
  unfold noMatchB at h
  simp only [Bool.and_eq_true, Bool.not_eq_true'] at h
  obtain ⟨⟨ha, hb⟩, hc⟩ := h
  unfold lookupTDK
  rw [if_neg (by simp [ha]), if_neg (by simp [hb]), if_neg (by simp [hc])]

theorem lookupTDK_match (tbls : Tables) (dir ty : String) (tr : Translation)
    (hdir : dir = "block" ∨ dir = "error" ∨ dir = "challenge")
    (hlook : List.lookup ty (tableFor tbls dir) = some tr) :
    lookupTDK tbls dir ty = (tr.title, tr.message) := by
  rcases hdir with rfl | rfl | rfl
  · unfold tableFor at hlook
    rw [if_pos (by decide)] at hlook
    unfold lookupTDK
    rw [if_pos (by simp [hlook])]
    rw [hlook]
    rfl
  · unfold tableFor at hlook
    rw [if_neg (by decide), if_pos (by decide)] at hlook
    unfold lookupTDK
    rw [if_neg (by simp), if_pos (by simp [hlook])]
    rw [hlook]
    rfl
  · unfold tableFor at hlook
    rw [if_neg (by decide), if_neg (by decide)] at hlook
    unfold lookupTDK
    rw [if_neg (by simp), if_neg (by simp), if_pos (by simp [hlook])]
    rw [hlook]
    rfl

/-! ### `updateTDK` dispatch and transport lemmas -/

theorem updateTDK_none (tbls : Tables) (p : String) (d : Document)
    (h : tdkParams p = none) : updateTDK tbls p d = d := by
  unfold updateTDK
  rw [h]

theorem updateTDK_some (tbls : Tables) (p : String) (d : Document) (dir ty : String)
    (h : tdkParams p = some (dir, ty)) :
    updateTDK tbls p d
      = updateTDKCore (lookupTDK tbls dir ty).1 (lookupTDK tbls dir ty).2 d := by
  unfold updateTDK
  rw [h]

theorem tag_of_isPreloadLinkB (e : Element) (h : isPreloadLinkB e = true) :
    e.tag = "link" := by
  unfold isPreloadLinkB at h
  exact eq_of_beq (Bool.and_eq_true_iff.mp h).1

theorem isPreloadLinkB_of_meta (n : String) (e : Element)
    (h : isMetaNamedB n e = true) : isPreloadLinkB e = false := by
  unfold isPreloadLinkB
  rw [tag_of_isMetaNamedB n e h]
  rfl

theorem link_mem_titleEdit (v : String) (d : Document) (e : Element)
    (hl : e.tag = "link") :
    e ∈ allElems (mapDoc (titleEdit v) d) ↔ e ∈ allElems d := by
  rw [allElems_mapDoc]
  constructor
  · intro he
    obtain ⟨a, ha, heq⟩ := List.mem_map.mp he
    cases hta : isTitleB a with
    | true =>
      exfalso
      have htag : (titleEdit v a).tag = "link" := heq ▸ hl
      rw [tag_titleEdit] at htag
      unfold isTitleB at hta
      rw [htag] at hta
      cases hta
    | false =>
      rw [titleEdit_not_title v a hta] at heq
      exact heq ▸ ha
  · intro he
    have hfix : titleEdit v e = e := titleEdit_not_title v e (by simp [isTitleB, hl])
    exact hfix ▸ List.mem_map_of_mem _ he

theorem link_mem_descEdit (v : String) (d : Document) (e : Element)
    (hl : e.tag = "link") :
    e ∈ allElems (mapDoc (descEdit v) d) ↔ e ∈ allElems d := by
  rw [allElems_mapDoc]
  constructor
  · intro he
    obtain ⟨a, ha, heq⟩ := List.mem_map.mp he
    cases hta : isMetaNamedB "description" a with
    | true =>
      exfalso
      have htag : (descEdit v a).tag = "link" := heq ▸ hl
      rw [tag_descEdit] at htag
      rw [tag_of_isMetaNamedB "description" a hta] at htag
      exact absurd htag (by decide)
    | false =>
      rw [descEdit_not_desc v a hta] at heq
      exact heq ▸ ha
  · intro he
    have hfix : descEdit v e = e := descEdit_not_desc v e (by simp [isMetaNamedB, hl])
    exact hfix ▸ List.mem_map_of_mem _ he

theorem link_mem_tdkTitleStage (pt : String) (d : Document) (e : Element)
    (hl : e.tag = "link") :
    e ∈ allElems (tdkTitleStage pt d) ↔ e ∈ allElems d := by
  unfold tdkTitleStage
  split
  · exact Iff.rfl
  · exact link_mem_titleEdit _ d e hl

theorem link_mem_tdkDescStage (pd : String) (d : Document) (e : Element)
    (hl : e.tag = "link") :
    e ∈ allElems (tdkDescStage pd d) ↔ e ∈ allElems d := by
  unfold tdkDescStage
  split
  · exact Iff.rfl
  · split
    · exact link_mem_descEdit _ d e hl
    · rw [mem_appendHead]
      constructor
      · rintro (hm | rfl)
        · exact hm
        · exact absurd hl (by simp [metaEl])
      · exact Or.inl

theorem link_mem_tdkKwStage (d : Document) (e : Element) (hl : e.tag = "link") :
    e ∈ allElems (tdkKwStage d) ↔ e ∈ allElems d := by
  unfold tdkKwStage
  split
  · exact Iff.rfl
  · rw [mem_appendHead]
    constructor
    · rintro (hm | rfl)
      · exact hm
      · exact absurd hl (by simp [kwMeta, metaEl])
    · exact Or.inl

theorem link_mem_updateTDK (tbls : Tables) (p : String) (d : Document) (e : Element)
    (hl : e.tag = "link") :
    e ∈ allElems (updateTDK tbls p d) ↔ e ∈ allElems d := by
  cases htp : tdkParams p with
  | none => rw [updateTDK_none tbls p d htp]
  | some q =>
    obtain ⟨dir, ty⟩ := q
    rw [updateTDK_some tbls p d dir ty htp, updateTDKCore_stages]
    rw [link_mem_tdkKwStage _ e hl, link_mem_tdkDescStage _ _ e hl,
      link_mem_tdkTitleStage _ _ e hl]

theorem link_mem_processHtmlFile (tbls : Tables) (p : String)
    (m : Option (Option String)) (date : String) (d : Document) (e : Element)
    (hl : e.tag = "link") :
    e ∈ allElems (processHtmlFile tbls p m date d) ↔ e ∈ allElems (preloadPass d) := by
  simp only [processHtmlFile]
  rw [mem_movePass]
  split
  · constructor
    · intro he
      rcases (mem_addCfMeta _ _ _ _).mp he with hcf | hd2
      · exact absurd ((cfMeta_props _ _ e hcf).1) (by simp [hl])
      · exact (link_mem_updateTDK tbls p _ e hl).mp hd2
    · intro he
      exact (mem_addCfMeta _ _ _ _).mpr
        (Or.inr ((link_mem_updateTDK tbls p _ e hl).mpr he))
  · exact link_mem_updateTDK tbls p _ e hl

/-! ### Keywords-filter lemmas -/

theorem filter_meta_preloadPass (n : String) (d : Document) :
    (allElems (preloadPass d)).filter (isMetaNamedB n)
      = (allElems d).filter (isMetaNamedB n) := by
  rw [allElems_preloadPass]
  apply filter_filterMap_eq
  · intro e he
    exact preloadEdit_not_link e (isPreloadLinkB_of_meta n e he)
  · intro e e' hf
    rcases preloadEdit_cases e with hc | ⟨h1, _, hc⟩ | ⟨_, _, hc⟩
    · rw [hc] at hf
      rw [Option.some.inj hf]
    · rw [hc] at hf
      have he' : e' = preloadStyled e := (Option.some.inj hf).symm
      subst he'
      have htl : e.tag = "link" := tag_of_isPreloadLinkB e h1
      have h2 : isMetaNamedB n e = false := by simp [isMetaNamedB, htl]
      have h3 : isMetaNamedB n (preloadStyled e) = false := by
        simp [isMetaNamedB, preloadStyled_tag, htl]
      rw [h2, h3]
    · rw [hc] at hf
      cases hf

theorem kwfilter_updateTDKCore (pt pd : String) (d : Document) :
    ((allElems d).filter (isMetaNamedB "keywords") = [] →
      (allElems (updateTDKCore pt pd d)).filter (isMetaNamedB "keywords") = [kwMeta])
    ∧ ((allElems d).filter (isMetaNamedB "keywords") ≠ [] →
      (allElems (updateTDKCore pt pd d)).filter (isMetaNamedB "keywords")
        = (allElems d).filter (isMetaNamedB "keywords")) := by
  rw [updateTDKCore_stages]
  have h1 : (allElems (tdkTitleStage pt d)).filter (isMetaNamedB "keywords")
      = (allElems d).filter (isMetaNamedB "keywords") :=
    filter_tdkTitleStage _ pt d (isMetaNamedB_titleEdit _ _)
      (fun e he => isTitleB_of_meta "keywords" e he)
  have h2 : (allElems (tdkDescStage pd (tdkTitleStage pt d))).filter
        (isMetaNamedB "keywords")
      = (allElems (tdkTitleStage pt d)).filter (isMetaNamedB "keywords") :=
    filter_tdkDescStage _ pd _ (isMetaNamedB_descEdit _ _)
      (fun e he => isMetaNamedB_ne "keywords" "description" e (by decide) he) rfl
  constructor
  · intro h0
    have hD : (allElems (tdkDescStage pd (tdkTitleStage pt d))).filter
        (isMetaNamedB "keywords") = [] := by rw [h2, h1, h0]
    unfold tdkKwStage
    have hany : ¬((allElems (tdkDescStage pd (tdkTitleStage pt d))).any
        (isMetaNamedB "keywords") = true) := by
      rw [List.any_eq_true]
      rintro ⟨x, hx, hPx⟩
      exact (List.filter_eq_nil_iff.mp hD x hx) hPx
    rw [if_neg hany]
    have hparts := List.append_eq_nil.mp
      (by simpa only [allElems, List.filter_append] using hD)
    show (allElems (appendHead _ kwMeta)).filter (isMetaNamedB "keywords") = [kwMeta]
    simp only [allElems, appendHead, List.filter_append]
    rw [hparts.1, hparts.2]
    simp [List.filter_cons, isMetaNamedB_kwMeta]
  · intro h0
    have hD : (allElems (tdkDescStage pd (tdkTitleStage pt d))).filter
        (isMetaNamedB "keywords") = (allElems d).filter (isMetaNamedB "keywords") := by
      rw [h2, h1]
    unfold tdkKwStage
    have hne : (allElems (tdkDescStage pd (tdkTitleStage pt d))).filter
        (isMetaNamedB "keywords") ≠ [] := by rw [hD]; exact h0
    have hany : (allElems (tdkDescStage pd (tdkTitleStage pt d))).any
        (isMetaNamedB "keywords") = true := by
      rw [List.any_eq_true]
      obtain ⟨x, hx⟩ := List.exists_mem_of_ne_nil _ hne
      exact ⟨x, (List.mem_filter.mp hx).1, (List.mem_filter.mp hx).2⟩
    rw [if_pos hany]
    exact hD

theorem head_movePass_addCf (v date : String) (D : Document) :
    ∃ rest, (moveScriptsToBodyBottom (addCloudflareMetaTags v date D)).head
      = cfMetaTags v date ++ rest := by
  by_cases hs : (addCloudflareMetaTags v date D).head.filter isScriptB = []
  · rw [movePass_no_headScripts _ hs]
    exact ⟨D.head, rfl⟩
  · rw [movePass_headScripts _ hs]
    refine ⟨D.head.filter (fun e => !isScriptB e), ?_⟩
    show (cfMetaTags v date ++ D.head).filter (fun e => !isScriptB e)
      = cfMetaTags v date ++ D.head.filter (fun e => !isScriptB e)
    have hcf : (cfMetaTags v date).filter (fun e => !isScriptB e) = cfMetaTags v date :=
      List.filter_eq_self.mpr (fun a ha => by
        rw [(cfMeta_props v date a ha).2.2.1]
        rfl)
    rw [List.filter_append, hcf]

/-! ### Claim theorems -/

/-- C2: for every document whose head contains at least one script element,
after `moveScriptsToBodyBottom` the head contains zero script elements and the
body's children are the original body children followed by the head scripts in
their original relative order (hence after the scripts already in the body);
if the head contains no script elements, the document is unchanged. -/
theorem c2_move_scripts (d : Document) :
    (1 ≤ (d.head.filter isScriptB).length →
      (moveScriptsToBodyBottom d).head.filter isScriptB = []
      ∧ (moveScriptsToBodyBottom d).body = d.body ++ d.head.filter isScriptB)
    ∧ ((d.head.filter isScriptB).length = 0 → moveScriptsToBodyBottom d = d) := by
  constructor
  · intro h
    have hne : d.head.filter isScriptB ≠ [] := by
      intro hc
      rw [hc] at h
      simp at h
    rw [movePass_headScripts d hne]
    refine ⟨?_, rfl⟩
    show (d.head.filter (fun e => !isScriptB e)).filter isScriptB = []
    rw [List.filter_filter]
    simp
  · intro h
    exact movePass_no_headScripts d (List.length_eq_zero.mp h)

/-- Witness for C2 at a concrete document with one head script and one body
script. -/
theorem c2_witness :
    (moveScriptsToBodyBottom docW).head.filter isScriptB = []
    ∧ (moveScriptsToBodyBottom docW).body = docW.body ++ docW.head.filter isScriptB :=
  (c2_move_scripts docW).1 (by decide)

/-- C8: the preload-normalisation edit and the script-relocation edit are
idempotent: applied to their own output they are no-ops. -/
theorem c8_idempotent (d : Document) :
    preloadPass (preloadPass d) = preloadPass d
    ∧ moveScriptsToBodyBottom (moveScriptsToBodyBottom d) = moveScriptsToBodyBottom d :=
  ⟨preloadPass_idem d, moveScriptsToBodyBottom_idem d⟩

/-- C7: the per-file loop of `main` processes each file independently: the
output for every other file does not depend on one file's content or failure
(`none` is a caught, logged failure: that file is left alone), no file is
skipped, and the run never terminates early. -/
theorem c7_fault_isolation (tbls : Tables) (m : Option (Option String))
    (date : String) (pre post : List (String × Option Document)) (p : String)
    (c : Option Document) :
    mainLoop tbls m date (pre ++ (p, c) :: post)
      = mainLoop tbls m date pre
        ++ (p, c.map (processHtmlFile tbls p m date)) :: mainLoop tbls m date post
    ∧ (∀ files, (mainLoop tbls m date files).length = files.length) := by
  constructor
  · simp [mainLoop]
  · intro files
    simp [mainLoop]

/-- C10: `updateTDK` never creates a title element: the number of title
elements is unchanged, and in particular a document with no title element
still has none after the transform. -/
theorem c10_no_title_created (tbls : Tables) (p : String) (d : Document) :
    ((allElems (updateTDK tbls p d)).filter isTitleB).length
      = ((allElems d).filter isTitleB).length
    ∧ ((allElems d).filter isTitleB = [] →
      (allElems (updateTDK tbls p d)).filter isTitleB = []) := by
  have key : ((allElems (updateTDK tbls p d)).filter isTitleB).length
      = ((allElems d).filter isTitleB).length := by
    cases htp : tdkParams p with
    | none => rw [updateTDK_none tbls p d htp]
    | some q =>
      obtain ⟨dir, ty⟩ := q
      rw [updateTDK_some tbls p d dir ty htp, updateTDKCore_stages]
      rw [filter_tdkKwStage isTitleB _ isTitleB_kwMeta]
      rw [filter_tdkDescStage isTitleB _ _ (isTitleB_descEdit _)
        (fun e he => isMetaNamedB_of_title "description" e he) rfl]
      unfold tdkTitleStage
      split
      · rfl
      · rw [allElems_mapDoc]
        exact filter_map_length isTitleB _ (isTitleB_titleEdit _) _
  refine ⟨key, fun h => ?_⟩
  have hz : ((allElems (updateTDK tbls p d)).filter isTitleB).length = 0 := by
    rw [key, h]
    rfl
  exact List.length_eq_zero.mp hz

/-- Witness for C10 at a concrete matching path and a document without a
title element. -/
theorem c10_witness :
    (allElems (updateTDK tblsW "out/cf/block/ip/index.html" docNoTitle)).filter
      isTitleB = [] :=
  (c10_no_title_created tblsW "out/cf/block/ip/index.html" docNoTitle).2 (by decide)

/-- C6: when the path parses to a category/type pair that matches no
translation-table entry - and likewise when the `cf` marker is absent or
fewer than two segments follow it, in which case `tdkParams` is `none` and the
hypothesis holds vacuously - `updateTDK` leaves the title elements and the
description metas of the document exactly as they were (a silent no-op). -/
theorem c6_no_match_no_change (tbls : Tables) (p : String) (d : Document)
    (h : ∀ dir ty, tdkParams p = some (dir, ty) → noMatchB tbls dir ty = true) :
    (allElems (updateTDK tbls p d)).filter isTitleB = (allElems d).filter isTitleB
    ∧ (allElems (updateTDK tbls p d)).filter (isMetaNamedB "description")
      = (allElems d).filter (isMetaNamedB "description") := by
  cases htp : tdkParams p with
  | none =>
    rw [updateTDK_none tbls p d htp]
    exact ⟨rfl, rfl⟩
  | some q =>
    obtain ⟨dir, ty⟩ := q
    have hnm := lookupTDK_of_noMatchB tbls dir ty (h dir ty htp)
    rw [updateTDK_some tbls p d dir ty htp, hnm]
    rw [show updateTDKCore ("", "").1 ("", "").2 d = tdkKwStage d from rfl]
    exact ⟨filter_tdkKwStage isTitleB d isTitleB_kwMeta,
      filter_tdkKwStage (isMetaNamedB "description") d rfl⟩

/-- Witness for C6 at a concrete path whose type segment is in no table. -/
theorem c6_witness :
    (allElems (updateTDK tblsW "out/cf/block/nope/index.html" docW)).filter isTitleB
      = (allElems docW).filter isTitleB
    ∧ (allElems (updateTDK tblsW "out/cf/block/nope/index.html" docW)).filter
        (isMetaNamedB "description")
      = (allElems docW).filter (isMetaNamedB "description") :=
  c6_no_match_no_change tblsW "out/cf/block/nope/index.html" docW (by
    intro dir ty hq
    have hcomp : tdkParams "out/cf/block/nope/index.html" = some ("block", "nope") := by
      decide
    rw [hcomp] at hq
    cases Option.some.inj hq
    decide)

/-- C9: the type key looked up by `updateTDK` is the raw path segment two
positions after the `cf` marker, with no extension stripping: a file directly
in a category directory, `.../cf/<category>/<name>.html`, is looked up under
the key `<name>.html`, which never equals a table key without the `.html`
suffix; a file one level deeper, `.../cf/<category>/<type>/index.html`, is
looked up under `<type>`. -/
theorem c9_raw_type_key (p q : String) (ps qs : List String)
    (cat name cat' ty' : String)
    (h1 : splitPath p = ps ++ ["cf", cat, name ++ ".html"]) (h2 : "cf" ∉ ps)
    (h3 : splitPath q = qs ++ ["cf", cat', ty', "index.html"]) (h4 : "cf" ∉ qs) :
    tdkParams p = some (cat, name ++ ".html")
    ∧ hasHtmlSuffix (name ++ ".html") = true
    ∧ (∀ k : String, hasHtmlSuffix k = false → name ++ ".html" ≠ k)
    ∧ tdkParams q = some (cat', ty') := by
  have e1 : tdkParams p = some (cat, name ++ ".html") :=
    tdkParams_split p ps [] cat (name ++ ".html") h1 h2
  have e2 : hasHtmlSuffix (name ++ ".html") = true := by
    unfold hasHtmlSuffix
    rw [String.data_append]
    exact List.isSuffixOf_iff_suffix.mpr (List.suffix_append _ _)
  refine ⟨e1, e2, ?_, tdkParams_split q qs ["index.html"] cat' ty' h3 h4⟩
  intro k hk heq
  rw [heq] at e2
  rw [e2] at hk
  cases hk

/-- Witness for C9 at concrete paths. -/
theorem c9_witness :
    tdkParams "out/cf/block/ip.html" = some ("block", "ip" ++ ".html")
    ∧ hasHtmlSuffix ("ip" ++ ".html") = true
    ∧ (∀ k : String, hasHtmlSuffix k = false → "ip" ++ ".html" ≠ k)
    ∧ tdkParams "out/cf/block/ip/index.html" = some ("block", "ip") :=
  c9_raw_type_key "out/cf/block/ip.html" "out/cf/block/ip/index.html"
    ["out"] ["out"] "block" "ip" "block" "ip"
    (by decide) (by decide) (by decide) (by decide)

/-- C3: preload normalisation over the whole transform: a style preload link
of the input reappears in the processed document with relation `stylesheet`
and no resource-type attribute, the processed document contains no font
preload link, and any other preload link of the input is still present
unchanged. -/
theorem c3_preload_normalisation (tbls : Tables) (p : String)
    (m : Option (Option String)) (date : String) (d : Document) :
    (∀ e ∈ allElems d, isPreloadLinkB e = true → attr e "as" = some "style" →
      preloadStyled e ∈ allElems (processHtmlFile tbls p m date d)
      ∧ attr (preloadStyled e) "rel" = some "stylesheet"
      ∧ attr (preloadStyled e) "as" = none)
    ∧ (∀ e ∈ allElems (processHtmlFile tbls p m date d),
        ¬(isPreloadLinkB e = true ∧ attr e "as" = some "font"))
    ∧ (∀ e ∈ allElems d, isPreloadLinkB e = true → attr e "as" ≠ some "style" →
        attr e "as" ≠ some "font" → e ∈ allElems (processHtmlFile tbls p m date d)) := by
  refine ⟨?_, ?_, ?_⟩
  · intro e he h1 h2
    have htag : (preloadStyled e).tag = "link" := by
      rw [preloadStyled_tag]
      exact tag_of_isPreloadLinkB e h1
    refine ⟨?_, attr_preloadStyled_rel e, attr_preloadStyled_as e⟩
    rw [link_mem_processHtmlFile tbls p m date d _ htag, allElems_preloadPass]
    exact List.mem_filterMap.mpr ⟨e, he, preloadEdit_style e h1 h2⟩
  · intro e he hcontra
    have htag := tag_of_isPreloadLinkB e hcontra.1
    have hm := (link_mem_processHtmlFile tbls p m date d e htag).mp he
    rw [allElems_preloadPass] at hm
    obtain ⟨a, _, hfa⟩ := List.mem_filterMap.mp hm
    exact preloadEdit_some_not_fontPreload a e hfa hcontra
  · intro e he h1 h2 h3
    have htag := tag_of_isPreloadLinkB e h1
    rw [link_mem_processHtmlFile tbls p m date d e htag, allElems_preloadPass]
    exact List.mem_filterMap.mpr ⟨e, he, preloadEdit_other e h1 h2 h3⟩

/-- Witness for C3 at the style preload link of a concrete document. -/
theorem c3_witness :
    preloadStyled linkW
      ∈ allElems (processHtmlFile tblsW "out/cf/block/ip/index.html" none "" docW)
    ∧ attr (preloadStyled linkW) "rel" = some "stylesheet"
    ∧ attr (preloadStyled linkW) "as" = none :=
  (c3_preload_normalisation tblsW "out/cf/block/ip/index.html" none "" docW).1 linkW
    (by decide) (by decide) (by decide)

/-- Counterexample to C5 as stated: a processed document whose path has no
`cf` marker (here `out/index.html`) gains no keywords meta tag at all, because
the early return of lines 67-69 fires before the keywords block of lines
103-108; the claim promised exactly one keywords meta for every processed
document. -/
theorem c5_counterexample :
    (allElems docW).filter (isMetaNamedB "keywords") = []
    ∧ (allElems (processHtmlFile tblsW "out/index.html" none "" docW)).filter
        (isMetaNamedB "keywords") = [] := by
  exact ⟨by decide, by decide⟩

/-- C5 (amended): for every processed document whose path contains the `cf`
marker with at least two following segments, independently of whether the
translation lookup succeeds: if the document has no keywords meta tag, the
processed document has exactly one, the fixed default; if it already has
keywords meta tags, they are left unchanged and no new one is added. -/
theorem c5_keywords (tbls : Tables) (p : String) (m : Option (Option String))
    (date : String) (d : Document) (h : (tdkParams p).isSome = true) :
    ((allElems d).filter (isMetaNamedB "keywords") = [] →
      (allElems (processHtmlFile tbls p m date d)).filter (isMetaNamedB "keywords")
        = [kwMeta])
    ∧ ((allElems d).filter (isMetaNamedB "keywords") ≠ [] →
      (allElems (processHtmlFile tbls p m date d)).filter (isMetaNamedB "keywords")
        = (allElems d).filter (isMetaNamedB "keywords")) := by
  obtain ⟨q, hq⟩ := Option.isSome_iff_exists.mp h
  obtain ⟨dir, ty⟩ := q
  have hkwfinal : (allElems (processHtmlFile tbls p m date d)).filter
        (isMetaNamedB "keywords")
      = (allElems (updateTDK tbls p (preloadPass d))).filter (isMetaNamedB "keywords") := by
    simp only [processHtmlFile]
    rw [movePass_filter_eq _ (fun e he => isScriptB_of_meta "keywords" e he)]
    split
    · exact filter_addCfMeta _ _ _ _ (fun e he => (cfMeta_props _ _ e he).2.2.2.2)
    · rfl
  rw [hkwfinal, updateTDK_some tbls p _ dir ty hq]
  have hpre := filter_meta_preloadPass "keywords" d
  have hcore := kwfilter_updateTDKCore (lookupTDK tbls dir ty).1
    (lookupTDK tbls dir ty).2 (preloadPass d)
  constructor
  · intro h0
    exact hcore.1 (hpre.trans h0)
  · intro h0
    rw [hcore.2 (by rw [hpre]; exact h0), hpre]

/-- Witness for C5 (amended) at a concrete path and a document without a
keywords meta. -/
theorem c5_witness :
    (allElems (processHtmlFile tblsW "out/cf/block/ip/index.html" none "" docW)).filter
      (isMetaNamedB "keywords") = [kwMeta] :=
  (c5_keywords tblsW "out/cf/block/ip/index.html" none "" docW (by decide)).1 (by decide)

/-- Counterexample to C4 as stated: the code triggers the platform meta
injection via the substring test `filePath.includes(path.join("out", "cf"))`
(line 49), not via a subdirectory-segment test.  At `out/cfx/index.html` the
substring `out/cf` occurs although the segment sequence `out`, `cf` does not,
and the five platform metas are injected anyway. -/
theorem c4_counterexample :
    strIncludes "out/cfx/index.html" "out/cf" = true
    ∧ specOutCfSegments "out/cfx/index.html" = false
    ∧ (processHtmlFile tblsW "out/cfx/index.html" (some (some "1.2.3"))
        "2026-02-03T00:00:00.000Z" emptyDoc).head.map (fun e => attr e "name")
      = [some "client-ip", some "ray-id", some "location-code", some "build-date",
         some "version"] :=
  ⟨by decide, by decide, by decide⟩

/-- C4 (amended): platform meta-tag injection triggers exactly when the path
contains the substring `out/cf` (the result of `path.join("out", "cf")`); when
triggered, the five meta tags stand at the top of the head in the order
client-ip, ray-id, location-code, build-date, version, and the version content
is the manifest's version field, or the sentinel `unknown` when the manifest
is missing, unparsable or lacks a version field; the fallback never aborts the
transform. -/
theorem c4_platform_meta (tbls : Tables) (p : String) (m : Option (Option String))
    (date : String) (d : Document) (hv : ∀ v, m = some (some v) → v ≠ "") :
    (strIncludes p "out/cf" = true →
      ∃ rest, (processHtmlFile tbls p m date d).head
        = cfMetaTags (versionOf m) date ++ rest)
    ∧ (strIncludes p "out/cf" = false →
      processHtmlFile tbls p m date d
        = moveScriptsToBodyBottom (updateTDK tbls p (preloadPass d)))
    ∧ (cfMetaTags (versionOf m) date).map (fun e => attr e "name")
      = [some "client-ip", some "ray-id", some "location-code", some "build-date",
         some "version"]
    ∧ versionOf m = (match m with | some (some v) => v | _ => "unknown") := by
  refine ⟨?_, ?_, rfl, ?_⟩
  · intro htr
    simp only [processHtmlFile]
    rw [if_pos htr]
    exact head_movePass_addCf (versionOf m) date _
  · intro htr
    simp only [processHtmlFile]
    rw [if_neg (by simp [htr])]
  · cases m with
    | none => rfl
    | some o =>
      cases o with
      | none => rfl
      | some v =>
        show (if v == "" then "unknown" else v) = v
        rw [if_neg (by simp [hv v rfl])]

/-- Witness for C4 (amended) at a concrete triggering path and manifest. -/
theorem c4_witness :
    ∃ rest, (processHtmlFile tblsW "out/cf/block/ip/index.html" (some (some "1.2.3"))
      "2026-02-03T00:00:00.000Z" docW).head
      = cfMetaTags (versionOf (some (some "1.2.3"))) "2026-02-03T00:00:00.000Z" ++ rest :=
  (c4_platform_meta tblsW "out/cf/block/ip/index.html" (some (some "1.2.3"))
    "2026-02-03T00:00:00.000Z" docW (by
      intro v hv'
      have hev : "1.2.3" = v := Option.some.inj (Option.some.inj hv')
      rw [← hev]
      decide)).1 (by decide)

/-- C1: for a path whose first `cf` segment is followed by a category segment
(block, error or challenge) and a type segment that is a key of the
corresponding translation table (with the nonempty title and message the spec's
`{title, message}` entries carry), the processed document's every title element
carries the translated title followed by `" - Cloudflare"`, and a description
meta with the translated message exists, every description meta carrying
exactly that message (existing ones are overwritten, one is appended when none
existed). -/
theorem c1_translated_metadata (tbls : Tables) (p : String) (ps rest : List String)
    (dir ty : String) (tr : Translation) (m : Option (Option String)) (date : String)
    (d : Document)
    (hsplit : splitPath p = ps ++ "cf" :: dir :: ty :: rest)
    (hcf : "cf" ∉ ps)
    (hdir : dir = "block" ∨ dir = "error" ∨ dir = "challenge")
    (hlook : List.lookup ty (tableFor tbls dir) = some tr)
    (htitle : tr.title ≠ "") (hmsg : tr.message ≠ "") :
    (∀ e ∈ allElems (processHtmlFile tbls p m date d), isTitleB e = true →
      e.text = tr.title ++ " - Cloudflare")
    ∧ (∃ e, e ∈ allElems (processHtmlFile tbls p m date d)
        ∧ isMetaNamedB "description" e = true ∧ attr e "content" = some tr.message)
    ∧ (∀ e ∈ allElems (processHtmlFile tbls p m date d),
        isMetaNamedB "description" e = true → attr e "content" = some tr.message) := by
  have hparams : tdkParams p = some (dir, ty) := tdkParams_split p ps rest dir ty hsplit hcf
  have hlk : lookupTDK tbls dir ty = (tr.title, tr.message) :=
    lookupTDK_match tbls dir ty tr hdir hlook
  have hcore := updateTDKCore_match tr.title tr.message (preloadPass d) htitle hmsg
  have hupd : updateTDK tbls p (preloadPass d)
      = updateTDKCore tr.title tr.message (preloadPass d) := by
    rw [updateTDK_some tbls p _ dir ty hparams, hlk]
  have hmem : ∀ x, x ∈ allElems (processHtmlFile tbls p m date d) →
      x ∈ allElems (updateTDKCore tr.title tr.message (preloadPass d))
        ∨ x ∈ cfMetaTags (versionOf m) date := by
    intro x hx
    simp only [processHtmlFile] at hx
    rw [mem_movePass] at hx
    revert hx
    split
    · intro hx
      rcases (mem_addCfMeta _ _ _ x).mp hx with hcf2 | hd
      · exact Or.inr hcf2
      · rw [hupd] at hd
        exact Or.inl hd
    · intro hx
      rw [hupd] at hx
      exact Or.inl hx
  have hmem2 : ∀ x, x ∈ allElems (updateTDKCore tr.title tr.message (preloadPass d)) →
      x ∈ allElems (processHtmlFile tbls p m date d) := by
    intro x hx
    simp only [processHtmlFile]
    rw [mem_movePass]
    split
    · refine (mem_addCfMeta _ _ _ x).mpr (Or.inr ?_)
      rw [hupd]
      exact hx
    · rw [hupd]
      exact hx
  refine ⟨?_, ?_, ?_⟩
  · intro e he ht
    rcases hmem e he with hm | hm
    · exact hcore.1 e hm ht
    · rw [(cfMeta_props _ _ e hm).2.1] at ht
      cases ht
  · obtain ⟨e, hm, hd, hc⟩ := hcore.2.1
    exact ⟨e, hmem2 e hm, hd, hc⟩
  · intro e he hd
    rcases hmem e he with hm | hm
    · exact hcore.2.2 e hm hd
    · rw [(cfMeta_props _ _ e hm).2.2.2.1] at hd
      cases hd

/-- Witness for C1 at a concrete path, table and document. -/
theorem c1_witness :
    (∀ e ∈ allElems (processHtmlFile tblsW "out/cf/block/ip/index.html" none "" docW),
      isTitleB e = true → e.text = trW.title ++ " - Cloudflare")
    ∧ (∃ e, e ∈ allElems (processHtmlFile tblsW "out/cf/block/ip/index.html" none "" docW)
        ∧ isMetaNamedB "description" e = true ∧ attr e "content" = some trW.message)
    ∧ (∀ e ∈ allElems (processHtmlFile tblsW "out/cf/block/ip/index.html" none "" docW),
        isMetaNamedB "description" e = true → attr e "content" = some trW.message) :=
  c1_translated_metadata tblsW "out/cf/block/ip/index.html" ["out"] ["index.html"]
    "block" "ip" trW none "" docW (by decide) (by decide) (Or.inl rfl) (by decide)
    (by decide) (by decide)

end AssetsProcess
